import Mathlib

/-!
Verification development for the model-runner distribution subsystem.

Go strings in the modelled code are manipulated byte-wise; every string the
claims touch is ASCII, so we embed Go strings as `List Char` (`GoStr`) and
Go's byte indexing/slicing as list indexing. Each `go…` helper mirrors one
function of Go's `strings` package as used by the sources.
-/

/-- Embedding of a Go string (ASCII contents, byte = char). -/
abbrev GoStr := List Char

/-- strings.HasPrefix s pre. -/
def goStartsWith (s pre : GoStr) : Bool := pre.isPrefixOf s

/-- strings.HasSuffix s suf. -/
def goEndsWith (s suf : GoStr) : Bool := suf.isSuffixOf s

/-- strings.TrimPrefix s pre. -/
def goTrimStart (s pre : GoStr) : GoStr :=
  if goStartsWith s pre then s.drop pre.length else s

/-- strings.TrimSuffix s suf. -/
def goTrimEnd (s suf : GoStr) : GoStr :=
  if goEndsWith s suf then s.take (s.length - suf.length) else s

/-- Split at the first occurrence of `c`: `some (before, after)` when `c`
occurs (`strings.Index`/`strings.SplitN (…, 2)`), `none` otherwise. -/
def splitFirst (c : Char) : GoStr → Option (GoStr × GoStr)
  | [] => none
  | x :: xs =>
    if x = c then some ([], xs)
    else
      match splitFirst c xs with
      | none => none
      | some (a, b) => some (x :: a, b)

/-- Split at the last occurrence of `c` (`strings.LastIndex`). -/
def cutLast (c : Char) (s : GoStr) : Option (GoStr × GoStr) :=
  match splitFirst c s.reverse with
  | none => none
  | some (a, b) => some (b.reverse, a.reverse)

/-- strings.ToLower, restricted to the ASCII range the model names use. -/
def goToLower (s : GoStr) : GoStr := s.map Char.toLower

/-- The default organization (`defaultOrg = "ai"` in the manager sources). -/
def defaultOrgStr : GoStr := "ai".toList

/-- The default tag (`defaultTag = "latest"`). -/
def defaultTagStr : GoStr := "latest".toList

/-- The `"hf.co/"` prefix that triggers Hugging Face lowercasing. -/
def hfcoPrefixStr : GoStr := "hf.co/".toList

/-- The default org followed by a slash, `"ai/"`, as stripped for display. -/
def aiSlash : GoStr := defaultOrgStr ++ "/".toList

/-- `NormalizeModelName` from the models manager: adds the default
organization prefix (`ai/`) and tag (`:latest`) if missing, lowercasing
`hf.co/` references first. -/
def NormalizeModelName (model : GoStr) : GoStr :=
  if model = [] then model
  else
    let m := if goStartsWith model hfcoPrefixStr then goToLower model else model
    let isRegistry :=
      match splitFirst '/' m with
      | some (seg, _) => decide (seg ≠ []) && seg.contains '.'
      | none => false
    if isRegistry then
      -- has a registry, just ensure tag
      if m.contains ':' then m else m ++ ':' :: defaultTagStr
    else
      let p := splitFirst ':' m
      let nameWithOrg := match p with | none => m | some (a, _) => a
      let tag := match p with | none => defaultTagStr | some (_, b) => b
      let nameWithOrg2 :=
        if nameWithOrg.contains '/' then nameWithOrg
        else defaultOrgStr ++ '/' :: nameWithOrg
      nameWithOrg2 ++ ':' :: tag

/-- `getDefaultRegistry` from the CLI commands package: the
`DEFAULT_REGISTRY` environment value when non-empty, else
`name.DefaultRegistry` (`"index.docker.io"`). The environment variable is a
parameter (`[]` models an unset or empty variable). -/
def getDefaultRegistry (env : GoStr) : GoStr :=
  if env ≠ [] then env else "index.docker.io".toList

/-- The registry-stripping loop of `stripDefaultsFromModelName`
(trim the first matching registry prefix, then break). -/
def stripRegistryLoop : List GoStr → GoStr → GoStr
  | [], m => m
  | reg :: rest, m =>
    if goStartsWith m reg then goTrimStart m reg else stripRegistryLoop rest m

/-- `stripDefaultsFromModelName` from the CLI commands package: removes the
default registry prefix, the default `ai/` org prefix, and the `:latest`
tag for display. -/
def stripDefaultsFromModelName (env : GoStr) (model : GoStr) : GoStr :=
  let dr := getDefaultRegistry env
  let registries :=
    if dr ≠ [] ∧ dr ≠ "index.docker.io".toList ∧ dr ≠ "docker.io".toList then
      [if goEndsWith dr ("/".toList) then dr else dr ++ "/".toList]
    else
      ["index.docker.io/".toList, "docker.io/".toList]
  let m1 := stripRegistryLoop registries model
  let m2 := if goStartsWith m1 aiSlash then goTrimStart m1 aiSlash else m1
  if goEndsWith m2 (':' :: defaultTagStr) then goTrimEnd m2 (':' :: defaultTagStr) else m2

example : NormalizeModelName "gemma3".toList = "ai/gemma3:latest".toList := by decide
example : NormalizeModelName "gemma3:v1".toList = "ai/gemma3:v1".toList := by decide
example : NormalizeModelName "myorg/gemma3".toList = "myorg/gemma3:latest".toList := by decide
example : NormalizeModelName "ai/gemma3:latest".toList = "ai/gemma3:latest".toList := by decide
example : NormalizeModelName "hf.co/Model".toList = "hf.co/model:latest".toList := by decide
example : stripDefaultsFromModelName [] "ai/gemma3:latest".toList = "gemma3".toList := by decide
example : stripDefaultsFromModelName [] "index.docker.io/ai/gemma3:latest".toList = "gemma3".toList := by decide
example : stripDefaultsFromModelName [] "hf.co/bartowski/model:latest".toList = "hf.co/bartowski/model".toList := by decide
example : NormalizeModelName "example.com:5000/gemma".toList = "example.com:5000/gemma".toList := by decide

lemma splitFirst_eq_none {c : Char} {s : GoStr} (h : splitFirst c s = none) : c ∉ s := by
  induction s with
  | nil => simp
  | cons x xs ih =>
    unfold splitFirst at h
    by_cases hx : x = c
    · simp [hx] at h
    · rw [if_neg hx] at h
      intro hmem
      rcases List.mem_cons.mp hmem with h1 | h2
      · exact hx h1.symm
      · cases hsplit : splitFirst c xs with
        | none => exact ih hsplit h2
        | some p => rw [hsplit] at h; cases p; simp at h

lemma splitFirst_eq_some {c : Char} {s a b : GoStr} (h : splitFirst c s = some (a, b)) :
    s = a ++ c :: b ∧ c ∉ a := by
  induction s generalizing a b with
  | nil => simp [splitFirst] at h
  | cons x xs ih =>
    unfold splitFirst at h
    by_cases hx : x = c
    · rw [if_pos hx] at h
      injection h with h
      injection h with h1 h2
      subst h1; subst h2; subst hx
      simp
    · rw [if_neg hx] at h
      cases hsplit : splitFirst c xs with
      | none => rw [hsplit] at h; simp at h
      | some p =>
        rcases p with ⟨a2, b2⟩
        rw [hsplit] at h
        simp only [Option.some.injEq, Prod.mk.injEq] at h
        obtain ⟨ha, hb⟩ := h
        obtain ⟨hs, hna⟩ := ih hsplit
        subst ha; subst hb; subst hs
        constructor
        · simp
        · intro hmem
          rcases List.mem_cons.mp hmem with h1 | h2
          · exact hx h1.symm
          · exact hna h2

lemma isPrefixOf_self_append (p t : GoStr) : p.isPrefixOf (p ++ t) = true := by
  induction p with
  | nil => simp
  | cons x xs ih => simp [List.isPrefixOf_cons₂, ih]

lemma isPrefixOf_append_cons {p r t : GoStr} {c : Char} (hc : c ∉ p)
    (h : p.isPrefixOf (r ++ c :: t) = true) : p.isPrefixOf r = true := by
  induction p generalizing r with
  | nil => simp
  | cons x xs ih =>
    cases r with
    | nil =>
      simp only [List.nil_append, List.isPrefixOf] at h
      have hx : x = c := by
        have := Bool.and_elim_left h
        exact eq_of_beq this
      exact absurd (hx ▸ List.mem_cons_self x xs) hc
    | cons y ys =>
      simp only [List.cons_append, List.isPrefixOf, Bool.and_eq_true] at h ⊢
      refine ⟨h.1, ih (fun hm => hc (List.mem_cons_of_mem x hm)) h.2⟩

lemma goStartsWith_append_cons_false {p r t : GoStr} {c : Char} (hc : c ∉ p)
    (h : goStartsWith r p = false) : goStartsWith (r ++ c :: t) p = false := by
  unfold goStartsWith at *
  cases hp : p.isPrefixOf (r ++ c :: t) with
  | false => rfl
  | true => rw [isPrefixOf_append_cons hc hp] at h; exact h

lemma goEndsWith_append (xs ys : GoStr) : goEndsWith (xs ++ ys) ys = true := by
  unfold goEndsWith List.isSuffixOf
  rw [List.reverse_append]
  exact isPrefixOf_self_append ys.reverse xs.reverse

lemma goTrimEnd_append (xs ys : GoStr) : goTrimEnd (xs ++ ys) ys = xs := by
  unfold goTrimEnd
  rw [goEndsWith_append, if_pos rfl, List.length_append]
  rw [Nat.add_sub_cancel]
  exact List.take_left xs ys

lemma goTrimStart_append (p r : GoStr) : goTrimStart (p ++ r) p = r := by
  unfold goTrimStart goStartsWith
  rw [isPrefixOf_self_append, if_pos rfl]
  exact List.drop_left p r

lemma toLower_eq_colon {c : Char} (h : c.toLower = ':') : c = ':' := by
  unfold Char.toLower at h
  simp only [] at h
  by_cases hc : c.toNat ≥ 65 ∧ c.toNat ≤ 90
  case pos =>
    rw [if_pos hc] at h
    exfalso
    obtain ⟨h1, h2⟩ := hc
    have hm1 : 97 ≤ c.toNat + 32 := by omega
    have hm2 : c.toNat + 32 ≤ 122 := by omega
    have hh := congrArg Char.toNat h
    revert hh
    generalize c.toNat + 32 = m at hm1 hm2
    interval_cases m <;> decide
  case neg =>
    rw [if_neg hc] at h
    exact h

lemma goToLower_not_colon {s : GoStr} (h : ':' ∉ s) : ':' ∉ goToLower s := by
  unfold goToLower
  intro hmem
  obtain ⟨c, hc, hlow⟩ := List.mem_map.mp hmem
  exact h (toLower_eq_colon hlow ▸ hc)

lemma append_cons_inj {a₁ a₂ t₁ t₂ : GoStr} {c : Char}
    (h : a₁ ++ c :: t₁ = a₂ ++ c :: t₂) (h₁ : c ∉ a₁) (h₂ : c ∉ a₂) :
    a₁ = a₂ ∧ t₁ = t₂ := by
  induction a₁ generalizing a₂ with
  | nil =>
    cases a₂ with
    | nil => simpa using h
    | cons y ys =>
      simp only [List.nil_append, List.cons_append, List.cons.injEq] at h
      exact absurd (h.1 ▸ List.mem_cons_self y ys) h₂
  | cons x xs ih =>
    cases a₂ with
    | nil =>
      simp only [List.nil_append, List.cons_append, List.cons.injEq] at h
      exact absurd (h.1.symm ▸ List.mem_cons_self x xs) h₁
    | cons y ys =>
      simp only [List.cons_append, List.cons.injEq] at h
      obtain ⟨hxy, hrest⟩ := h
      obtain ⟨hA, hT⟩ := ih hrest (fun hm => h₁ (List.mem_cons_of_mem x hm))
        (fun hm => h₂ (List.mem_cons_of_mem y hm))
      exact ⟨by rw [hxy, hA], hT⟩

lemma splitFirst_eq_none_of_not_mem {c : Char} {s : GoStr} (h : c ∉ s) :
    splitFirst c s = none := by
  induction s with
  | nil => rfl
  | cons x xs ih =>
    unfold splitFirst
    have hx : ¬ (x = c) := fun hx => h (by rw [← hx]; exact List.mem_cons_self x xs)
    rw [if_neg hx]
    rw [ih (fun hm => h (List.mem_cons_of_mem x hm))]

lemma splitFirst_isSome_of_mem {c : Char} {s : GoStr} (h : c ∈ s) :
    ∃ a b, splitFirst c s = some (a, b) := by
  cases hs : splitFirst c s with
  | none => exact absurd h (splitFirst_eq_none hs)
  | some p =>
    rcases p with ⟨a, b⟩
    exact ⟨a, b, rfl⟩

lemma not_mem_of_contains_eq_false {c : Char} {s : GoStr}
    (h : s.contains c = false) : c ∉ s := by
  intro hm
  have ht : s.contains c = true := List.elem_iff.mpr hm
  rw [ht] at h
  exact Bool.true_eq_false.mp h

lemma contains_eq_false_of_not_mem {c : Char} {s : GoStr} (h : c ∉ s) :
    s.contains c = false := by
  cases hc : s.contains c with
  | false => rfl
  | true =>
    have hm : c ∈ s := List.elem_iff.mp hc
    exact absurd hm h

lemma mem_of_goStartsWith {p s : GoStr} {c : Char}
    (h : goStartsWith s p = true) (hc : c ∈ p) : c ∈ s := by
  unfold goStartsWith at h
  exact (List.isPrefixOf_iff_prefix.mp h).subset hc

lemma goStartsWith_hfco_false_of_no_slash {r : GoStr} (h : '/' ∉ r) :
    goStartsWith r hfcoPrefixStr = false := by
  cases hgs : goStartsWith r hfcoPrefixStr with
  | false => rfl
  | true =>
    have : '/' ∈ r := mem_of_goStartsWith hgs (by decide)
    exact absurd this h

/-- C3 (amended, part a): a non-empty reference with no slash gets the
default org `ai/` prepended, and the default tag appended exactly when the
whole reference contains no colon. -/
theorem normalizeModelName_defaults (r : GoStr) (hne : r ≠ []) :
    (r.contains '/' = false →
      NormalizeModelName r =
        defaultOrgStr ++ '/' :: (r ++
          (if r.contains ':' then [] else ':' :: defaultTagStr))) ∧
    (r.contains ':' = false →
      ∃ X, NormalizeModelName r = X ++ ':' :: defaultTagStr) := by
  constructor
  · intro hslash
    have hnoslash : '/' ∉ r := not_mem_of_contains_eq_false hslash
    have hhf : goStartsWith r hfcoPrefixStr = false :=
      goStartsWith_hfco_false_of_no_slash hnoslash
    have hsplit : splitFirst '/' r = none := splitFirst_eq_none_of_not_mem hnoslash
    unfold NormalizeModelName
    rw [if_neg hne]
    simp only [hhf, Bool.false_eq_true, if_false, hsplit]
    by_cases hcol : r.contains ':' = true
    · obtain ⟨a, b, hab⟩ := splitFirst_isSome_of_mem (List.elem_iff.mp hcol)
      obtain ⟨hr, hna⟩ := splitFirst_eq_some hab
      have hano : a.contains '/' = false := contains_eq_false_of_not_mem
        (fun hm => hnoslash (hr ▸ List.mem_append_left _ hm))
      simp only [hab, hano, Bool.false_eq_true, if_false, if_pos hcol, hcol]
      rw [hr]
      simp [defaultOrgStr, List.append_assoc]
    · have hcolf : r.contains ':' = false := Bool.not_eq_true _ ▸ hcol
      have hsplitc : splitFirst ':' r = none :=
        splitFirst_eq_none_of_not_mem (not_mem_of_contains_eq_false hcolf)
      simp only [hsplitc, hslash, hcolf, Bool.false_eq_true, if_false]
      simp [defaultOrgStr]
  · intro hcol
    have hnocol : ':' ∉ r := not_mem_of_contains_eq_false hcol
    unfold NormalizeModelName
    rw [if_neg hne]
    by_cases hhf : goStartsWith r hfcoPrefixStr = true
    · simp only [hhf, if_true]
      have hnocolm : ':' ∉ goToLower r := goToLower_not_colon hnocol
      have hcolm : (goToLower r).contains ':' = false := contains_eq_false_of_not_mem hnocolm
      have hsplitc : splitFirst ':' (goToLower r) = none :=
        splitFirst_eq_none_of_not_mem hnocolm
      cases hreg : (match splitFirst '/' (goToLower r) with
          | some (seg, _) => decide (seg ≠ []) && seg.contains '.'
          | none => false) with
      | true => exact ⟨goToLower r, by simp only [hreg, if_true, hcolm,
          Bool.false_eq_true, if_false]⟩
      | false =>
        simp only [hreg, Bool.false_eq_true, if_false, hsplitc]
        by_cases hslash : (goToLower r).contains '/' = true
        · exact ⟨goToLower r, by simp only [hslash, if_true]⟩
        · refine ⟨defaultOrgStr ++ '/' :: goToLower r, ?_⟩
          have hslashf : (goToLower r).contains '/' = false := Bool.not_eq_true _ ▸ hslash
          simp only [hslashf, Bool.false_eq_true, if_false]
    · have hhff : goStartsWith r hfcoPrefixStr = false := Bool.not_eq_true _ ▸ hhf
      simp only [hhff, Bool.false_eq_true, if_false]
      have hcolm : r.contains ':' = false := hcol
      have hsplitc : splitFirst ':' r = none :=
        splitFirst_eq_none_of_not_mem hnocol
      cases hreg : (match splitFirst '/' r with
          | some (seg, _) => decide (seg ≠ []) && seg.contains '.'
          | none => false) with
      | true => exact ⟨r, by simp only [hreg, if_true, hcolm,
          Bool.false_eq_true, if_false]⟩
      | false =>
        simp only [hreg, Bool.false_eq_true, if_false, hsplitc]
        by_cases hslash : r.contains '/' = true
        · exact ⟨r, by simp only [hslash, if_true]⟩
        · refine ⟨defaultOrgStr ++ '/' :: r, ?_⟩
          have hslashf : r.contains '/' = false := Bool.not_eq_true _ ▸ hslash
          simp only [hslashf, Bool.false_eq_true, if_false]

/-- C3 counterexample: `"example.com:5000/gemma"` has a registry host with a
`:port`; its non-registry remainder `"gemma"` contains neither `':'` nor
`'@'`, yet `NormalizeModelName` returns the reference unchanged — no
`:latest` default tag is appended, contradicting the claim. -/
theorem c3_counterexample :
    splitFirst '/' "example.com:5000/gemma".toList =
      some ("example.com:5000".toList, "gemma".toList) ∧
    "example.com:5000".toList.contains '.' = true ∧
    "gemma".toList.contains ':' = false ∧
    "gemma".toList.contains '@' = false ∧
    NormalizeModelName "example.com:5000/gemma".toList =
      "example.com:5000/gemma".toList ∧
    goEndsWith (NormalizeModelName "example.com:5000/gemma".toList)
      (':' :: defaultTagStr) = false := by
  decide

/-- C3 witness: the amended theorem applied to the concrete reference
`"gemma3"`. -/
theorem c3_witness :
    ("gemma3".toList ≠ ([] : GoStr)) ∧
    NormalizeModelName "gemma3".toList =
      defaultOrgStr ++ '/' :: ("gemma3".toList ++
        (if "gemma3".toList.contains ':' then [] else ':' :: defaultTagStr)) ∧
    ∃ X, NormalizeModelName "gemma3".toList = X ++ ':' :: defaultTagStr := by
  refine ⟨by decide, ?_, ?_⟩
  · exact (normalizeModelName_defaults "gemma3".toList (by decide)).1 (by decide)
  · exact (normalizeModelName_defaults "gemma3".toList (by decide)).2 (by decide)

lemma goStartsWith_cons_ne {a b : Char} (h : (a == b) = false) (p s : GoStr) :
    goStartsWith (b :: s) (a :: p) = false := by
  simp [goStartsWith, List.isPrefixOf_cons₂, h]

lemma stripDefaults_eq_self (s : GoStr)
    (h1 : goStartsWith s "index.docker.io/".toList = false)
    (h2 : goStartsWith s "docker.io/".toList = false)
    (h3 : goStartsWith s aiSlash = false)
    (h4 : goEndsWith s (':' :: defaultTagStr) = false) :
    stripDefaultsFromModelName [] s = s := by
  unfold stripDefaultsFromModelName getDefaultRegistry
  simp only [ne_eq, not_true_eq_false, if_false, if_neg (by decide :
    ¬ (("index.docker.io".toList : GoStr) ≠ [] ∧
       ("index.docker.io".toList : GoStr) ≠ "index.docker.io".toList ∧
       ("index.docker.io".toList : GoStr) ≠ "docker.io".toList))]
  simp only [stripRegistryLoop, h1, h2, Bool.false_eq_true, if_false, h3, h4]

lemma stripDefaults_tag (s : GoStr)
    (h1 : goStartsWith s "index.docker.io/".toList = false)
    (h2 : goStartsWith s "docker.io/".toList = false)
    (h3 : goStartsWith s aiSlash = false) :
    stripDefaultsFromModelName [] (s ++ ':' :: defaultTagStr) = s := by
  have h1' := goStartsWith_append_cons_false (c := ':') (t := defaultTagStr) (by decide) h1
  have h2' := goStartsWith_append_cons_false (c := ':') (t := defaultTagStr) (by decide) h2
  have h3' := goStartsWith_append_cons_false (c := ':') (t := defaultTagStr) (by decide) h3
  unfold stripDefaultsFromModelName getDefaultRegistry
  simp only [ne_eq, not_true_eq_false, if_false, if_neg (by decide :
    ¬ (("index.docker.io".toList : GoStr) ≠ [] ∧
       ("index.docker.io".toList : GoStr) ≠ "index.docker.io".toList ∧
       ("index.docker.io".toList : GoStr) ≠ "docker.io".toList))]
  simp only [stripRegistryLoop, h1', h2', Bool.false_eq_true, if_false, h3',
    goEndsWith_append, if_true]
  exact goTrimEnd_append s (':' :: defaultTagStr)

lemma stripDefaults_ai (s : GoStr)
    (h4 : goEndsWith s (':' :: defaultTagStr) = false) :
    stripDefaultsFromModelName [] (aiSlash ++ s) = s := by
  have h1 : goStartsWith (aiSlash ++ s) "index.docker.io/".toList = false := by
    exact goStartsWith_cons_ne (by decide) _ _
  have h2 : goStartsWith (aiSlash ++ s) "docker.io/".toList = false := by
    exact goStartsWith_cons_ne (by decide) _ _
  have h3 : goStartsWith (aiSlash ++ s) aiSlash = true := by
    unfold goStartsWith
    exact isPrefixOf_self_append aiSlash s
  unfold stripDefaultsFromModelName getDefaultRegistry
  simp only [ne_eq, not_true_eq_false, if_false, if_neg (by decide :
    ¬ (("index.docker.io".toList : GoStr) ≠ [] ∧
       ("index.docker.io".toList : GoStr) ≠ "index.docker.io".toList ∧
       ("index.docker.io".toList : GoStr) ≠ "docker.io".toList))]
  simp only [stripRegistryLoop, h1, h2, Bool.false_eq_true, if_false, h3, if_true,
    goTrimStart_append, h4]

lemma stripDefaults_ai_tag (s : GoStr) :
    stripDefaultsFromModelName [] (aiSlash ++ (s ++ ':' :: defaultTagStr)) = s := by
  have h1 : goStartsWith (aiSlash ++ (s ++ ':' :: defaultTagStr))
      "index.docker.io/".toList = false := by
    exact goStartsWith_cons_ne (by decide) _ _
  have h2 : goStartsWith (aiSlash ++ (s ++ ':' :: defaultTagStr))
      "docker.io/".toList = false := by
    exact goStartsWith_cons_ne (by decide) _ _
  have h3 : goStartsWith (aiSlash ++ (s ++ ':' :: defaultTagStr)) aiSlash = true := by
    unfold goStartsWith
    exact isPrefixOf_self_append aiSlash _
  unfold stripDefaultsFromModelName getDefaultRegistry
  simp only [ne_eq, not_true_eq_false, if_false, if_neg (by decide :
    ¬ (("index.docker.io".toList : GoStr) ≠ [] ∧
       ("index.docker.io".toList : GoStr) ≠ "index.docker.io".toList ∧
       ("index.docker.io".toList : GoStr) ≠ "docker.io".toList))]
  simp only [stripRegistryLoop, h1, h2, Bool.false_eq_true, if_false, h3, if_true,
    goTrimStart_append, goEndsWith_append, goTrimEnd_append]

/-- C8: with no `DEFAULT_REGISTRY` override, display stripping inverts
normalization on every reference that does not start with a default
registry prefix or `ai/`, does not end with `:latest`, and needs no
`hf.co` lowercasing. -/
theorem stripDefaults_normalize_roundtrip (r : GoStr)
    (h1 : goStartsWith r "index.docker.io/".toList = false)
    (h2 : goStartsWith r "docker.io/".toList = false)
    (h3 : goStartsWith r aiSlash = false)
    (h4 : goEndsWith r (':' :: defaultTagStr) = false)
    (h5 : goStartsWith r hfcoPrefixStr = true → goToLower r = r) :
    stripDefaultsFromModelName [] (NormalizeModelName r) = r := by
  by_cases hr : r = []
  · subst hr
    decide
  · have hm : (if goStartsWith r hfcoPrefixStr then goToLower r else r) = r := by
      by_cases hhf : goStartsWith r hfcoPrefixStr = true
      · rw [if_pos hhf]
        exact h5 hhf
      · rw [if_neg hhf]
    unfold NormalizeModelName
    rw [if_neg hr]
    simp only [hm]
    cases hreg : (match splitFirst '/' r with
        | some (seg, _) => decide (seg ≠ []) && seg.contains '.'
        | none => false) with
    | true =>
      simp only [hreg, if_true]
      by_cases hcol : r.contains ':' = true
      · simp only [hcol, if_true]
        exact stripDefaults_eq_self r h1 h2 h3 h4
      · have hcolf : r.contains ':' = false := Bool.not_eq_true _ ▸ hcol
        simp only [hcolf, Bool.false_eq_true, if_false]
        exact stripDefaults_tag r h1 h2 h3
    | false =>
      simp only [hreg, Bool.false_eq_true, if_false]
      cases hsplit : splitFirst ':' r with
      | none =>
        simp only [hsplit]
        by_cases hslash : r.contains '/' = true
        · simp only [hslash, if_true]
          exact stripDefaults_tag r h1 h2 h3
        · have hslashf : r.contains '/' = false := Bool.not_eq_true _ ▸ hslash
          simp only [hslashf, Bool.false_eq_true, if_false]
          have hshape : (defaultOrgStr ++ '/' :: r) ++ ':' :: defaultTagStr =
              aiSlash ++ (r ++ ':' :: defaultTagStr) := by
            simp [aiSlash, defaultOrgStr]
          rw [hshape]
          exact stripDefaults_ai_tag r
      | some p =>
        rcases p with ⟨a, b⟩
        obtain ⟨hab, hna⟩ := splitFirst_eq_some hsplit
        simp only [hsplit]
        by_cases hslash : a.contains '/' = true
        · simp only [hslash, if_true]
          rw [← hab]
          exact stripDefaults_eq_self r h1 h2 h3 h4
        · have hslashf : a.contains '/' = false := Bool.not_eq_true _ ▸ hslash
          simp only [hslashf, Bool.false_eq_true, if_false]
          have hshape : (defaultOrgStr ++ '/' :: a) ++ ':' :: b =
              aiSlash ++ (a ++ ':' :: b) := by
            simp [aiSlash, defaultOrgStr]
          rw [hshape, ← hab]
          have h4' : goEndsWith r (':' :: defaultTagStr) = false := h4
          exact stripDefaults_ai r h4'

/-- C8 witness: the round-trip theorem applied to concrete references. -/
theorem c8_witness :
    stripDefaultsFromModelName [] (NormalizeModelName "myorg/gemma3".toList) =
      "myorg/gemma3".toList ∧
    stripDefaultsFromModelName [] (NormalizeModelName "gemma3:v1".toList) =
      "gemma3:v1".toList := by
  constructor
  · exact stripDefaults_normalize_roundtrip "myorg/gemma3".toList
      (by decide) (by decide) (by decide) (by decide) (by decide)
  · exact stripDefaults_normalize_roundtrip "gemma3:v1".toList
      (by decide) (by decide) (by decide) (by decide) (by decide)

/-- v1.Hash from go-containerregistry: an algorithm tag plus a hex digest. -/
structure V1Hash where
  algorithm : GoStr
  hex : GoStr
deriving DecidableEq

/-- Hash.String(): `Algorithm + ":" + Hex`. -/
def v1HashString (h : V1Hash) : GoStr := h.algorithm ++ ':' :: h.hex

/-- The `"sha256"` algorithm tag. -/
def sha256Str : GoStr := "sha256".toList

/-- The `"sha512"` algorithm tag. -/
def sha512Str : GoStr := "sha512".toList

/-- `isSafeAlgorithm` over the `allowedAlgorithms` map of the blob store:
returns the required hex length for the two permitted algorithms. -/
def isSafeAlgorithm (a : GoStr) : Option Nat :=
  if a = sha256Str then some 64
  else if a = sha512Str then some 128
  else none

/-- The character class accepted by `isSafeHex`. -/
def isHexChar (c : Char) : Bool :=
  ('0' ≤ c && c ≤ '9') || ('a' ≤ c && c ≤ 'f') || ('A' ≤ c && c ≤ 'F')

/-- `isSafeHex` from the blob store: correct length and hex characters only. -/
def isSafeHex (hexLength : Nat) (s : GoStr) : Bool :=
  decide (s.length = hexLength) && s.all isHexChar

/-- `validateHash` from the blob store: the hash components must be safe for
filesystem paths. -/
def validateHash (h : V1Hash) : Bool :=
  match isSafeAlgorithm h.algorithm with
  | none => false
  | some n => isSafeHex n h.hex

/-- The filesystem state relevant to one blob hash: the contents of the
final file `blobs/<alg>/<hex>` and of its `.incomplete` sibling (`none`
means the file does not exist). -/
structure BlobStoreState where
  blob : Option (List Nat)
  incomplete : Option (List Nat)
deriving DecidableEq

/-- `hasBlob`: `os.Stat` on the final blob path. -/
def hasBlob (st : BlobStoreState) : Bool := st.blob.isSome

/-- Outcome of the `io.Copy(f, r)` call: either the whole reader is copied,
or the copy is interrupted (cancellation or I/O error) after writing
`written` bytes of the reader. -/
inductive CopyOutcome
  | success
  | failure (written : Nat)
deriving DecidableEq

/-- The error classes a `WriteBlob` call can end in. -/
inductive WriteBlobResult
  | ok
  | invalidHash
  | copyError
  | hashMismatch
deriving DecidableEq

/-- Result of a `WriteBlob` call: the final filesystem state, the returned
error class, and how many bytes were consumed from the reader. -/
structure WriteBlobOutcome where
  state : BlobStoreState
  result : WriteBlobResult
  bytesRead : Nat
deriving DecidableEq

/-- `LocalStore.WriteBlob` from the blob store, shallowly embedded over
`BlobStoreState`. `sha256hex` is the digest oracle for `v1.SHA256` (the
code always re-hashes with SHA-256, whatever `diffID.Algorithm` says).
Filesystem open/rename/stat operations are assumed to succeed; the
`io.Copy` outcome is the `copy` parameter. Mirrored control flow:
`hasBlob` (which validates the hash via `blobPath`) and early return;
re-hash of an existing `.incomplete` file and rename when its digest
string equals `diffID.String()`; append-resume otherwise; on copy failure
delete the incomplete file iff resuming; re-verify the whole file after a
resumed copy, deleting it on mismatch; final rename. -/
def WriteBlob (sha256hex : List Nat → GoStr) (diffID : V1Hash)
    (st : BlobStoreState) (r : List Nat) (copy : CopyOutcome) : WriteBlobOutcome :=
  if validateHash diffID = false then
    -- hasBlob → blobPath → validateHash fails: "check blob existence" error
    ⟨st, .invalidHash, 0⟩
  else if hasBlob st then
    ⟨st, .ok, 0⟩
  else
    match st.incomplete with
    | some inc =>
      if v1HashString ⟨sha256Str, sha256hex inc⟩ = v1HashString diffID then
        -- file is already complete, just rename it
        ⟨⟨some inc, none⟩, .ok, 0⟩
      else
        match copy with
        | .failure k =>
          -- resuming and copy failed: the incomplete file is removed
          ⟨⟨none, none⟩, .copyError, k⟩
        | .success =>
          if v1HashString ⟨sha256Str, sha256hex (inc ++ r)⟩ = v1HashString diffID then
            ⟨⟨some (inc ++ r), none⟩, .ok, r.length⟩
          else
            -- hash mismatch after download: remove the incomplete file
            ⟨⟨none, none⟩, .hashMismatch, r.length⟩
    | none =>
      match copy with
      | .failure k =>
        -- new download interrupted: partial bytes stay in the incomplete file
        ⟨⟨none, some (r.take k)⟩, .copyError, k⟩
      | .success =>
        -- stream already verified during download; rename directly
        ⟨⟨some r, none⟩, .ok, r.length⟩

lemma validateHash_algorithm {h : V1Hash} (hv : validateHash h = true) :
    h.algorithm = sha256Str ∨ h.algorithm = sha512Str := by
  unfold validateHash isSafeAlgorithm at hv
  by_cases h1 : h.algorithm = sha256Str
  · exact Or.inl h1
  · rw [if_neg h1] at hv
    by_cases h2 : h.algorithm = sha512Str
    · exact Or.inr h2
    · rw [if_neg h2] at hv
      simp at hv

lemma v1HashString_sha256_eq_iff {x : GoStr} {h : V1Hash}
    (hv : validateHash h = true) :
    v1HashString ⟨sha256Str, x⟩ = v1HashString h ↔
      (h.algorithm = sha256Str ∧ x = h.hex) := by
  constructor
  · intro heq
    unfold v1HashString at heq
    have halgmem : ':' ∉ h.algorithm := by
      rcases validateHash_algorithm hv with ha | ha <;> rw [ha] <;> decide
    have h256mem : ':' ∉ sha256Str := by decide
    obtain ⟨ha, hx⟩ := append_cons_inj heq h256mem halgmem
    exact ⟨ha.symm, hx⟩
  · intro ⟨ha, hx⟩
    unfold v1HashString
    rw [ha, hx]

/-- Toy SHA-256 digest oracle for concrete instances (a constant 64-char
hex value). -/
def toyHash64 : List Nat → GoStr := fun _ => List.replicate 64 '0'

/-- Toy SHA-256 digest oracle whose value is 64 copies of '1'. -/
def toyHash64Ones : List Nat → GoStr := fun _ => List.replicate 64 '1'

/-- Toy SHA-512 digest oracle for concrete instances. -/
def toyHash128 : List Nat → GoStr := fun _ => List.replicate 128 '1'

/-- A concrete permitted sha256 target hash (64 copies of '1'). -/
def cexTargetSha256 : V1Hash := ⟨sha256Str, List.replicate 64 '1'⟩

/-- A concrete permitted sha512 target hash (128 copies of '1'). -/
def cexTargetSha512 : V1Hash := ⟨sha512Str, List.replicate 128 '1'⟩

/-- C1 (amended): for a permitted **sha256** hash with an existing
incomplete file and a successfully copying reader, `WriteBlob` re-hashes
the incomplete file and renames without reading the reader when the digest
already matches; otherwise it appends the reader, re-verifies the whole
file, and on mismatch deletes the incomplete file and fails; the write
succeeds iff the incomplete file or the combined bytes hash to the target. -/
theorem writeBlob_resume_sha256 (f : List Nat → GoStr) (h : V1Hash)
    (st : BlobStoreState) (inc r : List Nat)
    (hv : validateHash h = true) (halg : h.algorithm = sha256Str)
    (hb : st.blob = none) (hi : st.incomplete = some inc) :
    (f inc = h.hex →
      WriteBlob f h st r .success = ⟨⟨some inc, none⟩, .ok, 0⟩) ∧
    (f inc ≠ h.hex → f (inc ++ r) = h.hex →
      WriteBlob f h st r .success = ⟨⟨some (inc ++ r), none⟩, .ok, r.length⟩) ∧
    (f inc ≠ h.hex → f (inc ++ r) ≠ h.hex →
      WriteBlob f h st r .success = ⟨⟨none, none⟩, .hashMismatch, r.length⟩) ∧
    ((WriteBlob f h st r .success).result = .ok ↔
      (f inc = h.hex ∨ f (inc ++ r) = h.hex)) := by
  have hwrite : WriteBlob f h st r .success =
      (if v1HashString ⟨sha256Str, f inc⟩ = v1HashString h then
        ⟨⟨some inc, none⟩, .ok, 0⟩
      else if v1HashString ⟨sha256Str, f (inc ++ r)⟩ = v1HashString h then
        ⟨⟨some (inc ++ r), none⟩, .ok, r.length⟩
      else
        ⟨⟨none, none⟩, .hashMismatch, r.length⟩) := by
    unfold WriteBlob hasBlob
    rw [hv, hb, hi]
    simp
  by_cases h1 : f inc = h.hex
  · have hc1 : v1HashString ⟨sha256Str, f inc⟩ = v1HashString h :=
      (v1HashString_sha256_eq_iff hv).mpr ⟨halg, h1⟩
    rw [hwrite, if_pos hc1]
    refine ⟨fun _ => rfl, fun hne _ => absurd h1 hne, fun hne _ => absurd h1 hne, ?_⟩
    simp [h1]
  · have hc1 : ¬ v1HashString ⟨sha256Str, f inc⟩ = v1HashString h := by
      intro hc
      exact h1 ((v1HashString_sha256_eq_iff hv).mp hc).2
    rw [hwrite, if_neg hc1]
    by_cases h2 : f (inc ++ r) = h.hex
    · have hc2 : v1HashString ⟨sha256Str, f (inc ++ r)⟩ = v1HashString h :=
        (v1HashString_sha256_eq_iff hv).mpr ⟨halg, h2⟩
      rw [if_pos hc2]
      refine ⟨fun he => absurd he h1, fun _ _ => rfl, fun _ hne => absurd h2 hne, ?_⟩
      simp [h2]
    · have hc2 : ¬ v1HashString ⟨sha256Str, f (inc ++ r)⟩ = v1HashString h := by
        intro hc
        exact h2 ((v1HashString_sha256_eq_iff hv).mp hc).2
      rw [if_neg hc2]
      refine ⟨fun he => absurd he h1, fun _ he => absurd he h2, fun _ _ => rfl, ?_⟩
      constructor
      · intro hres
        simp at hres
      · intro hor
        rcases hor with he | he
        · exact absurd he h1
        · exact absurd he h2

set_option maxRecDepth 8192 in
/-- C1 counterexample: for the permitted sha512 hash `cexTargetSha512`,
the incomplete file (empty) combined with an empty reader sha512-hashes to
the target hex (per the declared sha512 oracle), yet `WriteBlob` fails
with a hash mismatch and deletes the incomplete file, because the code
re-hashes with `v1.SHA256` and `"sha256:…"` never equals `"sha512:…"`. -/
theorem c1_counterexample :
    validateHash cexTargetSha512 = true ∧
    cexTargetSha512.algorithm = sha512Str ∧
    toyHash128 ([] ++ ([] : List Nat)) = cexTargetSha512.hex ∧
    (WriteBlob toyHash64 cexTargetSha512 ⟨none, some []⟩ [] .success).result =
      .hashMismatch ∧
    (WriteBlob toyHash64 cexTargetSha512 ⟨none, some []⟩ [] .success).state =
      ⟨none, none⟩ := by
  decide

/-- C1 witness: the amended theorem applied at a concrete store state. -/
theorem c1_witness :
    WriteBlob toyHash64Ones cexTargetSha256 ⟨none, some [7]⟩ [8] .success =
      ⟨⟨some [7], none⟩, .ok, 0⟩ ∧
    WriteBlob toyHash64 cexTargetSha256 ⟨none, some [7]⟩ [8] .success =
      ⟨⟨none, none⟩, .hashMismatch, 1⟩ := by
  constructor
  · exact (writeBlob_resume_sha256 toyHash64Ones cexTargetSha256 ⟨none, some [7]⟩
      [7] [8] (by decide) (by decide) rfl rfl).1 (by decide)
  · exact (writeBlob_resume_sha256 toyHash64 cexTargetSha256 ⟨none, some [7]⟩
      [7] [8] (by decide) (by decide) rfl rfl).2.2.1 (by decide) (by decide)

/-- C2 (amended): when `io.Copy` is interrupted (cancellation or I/O
error), a fresh (non-resumed) `WriteBlob` leaves the partial bytes in the
`.incomplete` file for later resume, but a resumed `WriteBlob` deletes the
incomplete file even though no hash mismatch was proven. -/
theorem writeBlob_copy_failure (f : List Nat → GoStr) (h : V1Hash)
    (st : BlobStoreState) (r : List Nat) (k : Nat)
    (hv : validateHash h = true) (hb : st.blob = none) :
    (st.incomplete = none →
      WriteBlob f h st r (.failure k) = ⟨⟨none, some (r.take k)⟩, .copyError, k⟩) ∧
    (∀ inc, st.incomplete = some inc →
      v1HashString ⟨sha256Str, f inc⟩ ≠ v1HashString h →
      WriteBlob f h st r (.failure k) = ⟨⟨none, none⟩, .copyError, k⟩) := by
  constructor
  · intro hi
    unfold WriteBlob hasBlob
    rw [hv, hb, hi]
    simp
  · intro inc hi hne
    unfold WriteBlob hasBlob
    rw [hv, hb, hi]
    simp [hne]

/-- C2 counterexample: a resumed `WriteBlob` (incomplete file `[7]`
present, digest not yet matching) whose copy is interrupted fails with a
plain copy error — no proven hash mismatch — yet the incomplete file is
deleted instead of being left for later resume. -/
theorem c2_counterexample :
    validateHash cexTargetSha256 = true ∧
    (WriteBlob toyHash64 cexTargetSha256 ⟨none, some [7]⟩ [8] (.failure 0)).result =
      .copyError ∧
    (WriteBlob toyHash64 cexTargetSha256 ⟨none, some [7]⟩ [8]
      (.failure 0)).state.incomplete = none := by
  decide

/-- C2 witness: the amended theorem applied at concrete store states. -/
theorem c2_witness :
    WriteBlob toyHash64 cexTargetSha256 ⟨none, none⟩ [8, 9] (.failure 1) =
      ⟨⟨none, some [8]⟩, .copyError, 1⟩ ∧
    WriteBlob toyHash64 cexTargetSha256 ⟨none, some [7]⟩ [8] (.failure 0) =
      ⟨⟨none, none⟩, .copyError, 0⟩ := by
  constructor
  · exact (writeBlob_copy_failure toyHash64 cexTargetSha256 ⟨none, none⟩
      [8, 9] 1 (by decide) rfl).1 rfl
  · exact (writeBlob_copy_failure toyHash64 cexTargetSha256 ⟨none, some [7]⟩
      [8] 0 (by decide) rfl).2 [7] rfl (by decide)

/-- C10: when the final blob file already exists (necessarily at a valid
hash path), `WriteBlob` returns success immediately: the store state is
unchanged, no incomplete file is created, and no byte is consumed from the
reader. -/
theorem writeBlob_idempotent (f : List Nat → GoStr) (h : V1Hash)
    (st : BlobStoreState) (r : List Nat) (copy : CopyOutcome) (b : List Nat)
    (hv : validateHash h = true) (hb : st.blob = some b) :
    WriteBlob f h st r copy = ⟨st, .ok, 0⟩ := by
  unfold WriteBlob hasBlob
  rw [hv, hb]
  simp

/-- C10 witness: idempotence applied at a concrete store state. -/
theorem c10_witness :
    WriteBlob toyHash64 cexTargetSha256 ⟨some [1, 2], some [9]⟩ [3] .success =
      ⟨⟨some [1, 2], some [9]⟩, .ok, 0⟩ := by
  exact writeBlob_idempotent toyHash64 cexTargetSha256 ⟨some [1, 2], some [9]⟩
    [3] .success [1, 2] (by decide) rfl

/-- The `"sha256:"` model-ID prefix. -/
def sha256ColonStr : GoStr := "sha256:".toList

/-- A locally stored (or listed) model as the resolution claims see it:
its ID string (`"sha256:<hex>"`) and its tags. -/
structure StoredModel where
  id : GoStr
  tags : List GoStr
deriving DecidableEq

/-- Result of running Go code that may panic at runtime. -/
inductive GoOutcome (α : Type)
  | ok (val : α)
  | panic
deriving DecidableEq

/-- `Client.fullModelID` from the CLI desktop client: scan the listed
models; for each, compare `m.ID[7:19]`, the ID without its `sha256:`
prefix, and the full ID against the input, then the tags verbatim, then
the tags after normalization. `m.ID[7:19]` is evaluated unconditionally,
so a listed ID shorter than 19 bytes panics (slice out of range). A `none`
value embeds the "model with ID … not found" error return. -/
def fullModelID : List StoredModel → GoStr → GoOutcome (Option GoStr)
  | [], _ => .ok none
  | m :: rest, id =>
    if m.id.length < 19 then .panic
    else if ((m.id.drop 7).take 12 == id || goTrimStart m.id sha256ColonStr == id
        || m.id == id) then .ok (some m.id)
    else if m.tags.any (fun t => t == id) then .ok (some m.id)
    else if m.tags.any (fun t => NormalizeModelName t == NormalizeModelName id) then
      .ok (some m.id)
    else fullModelID rest id

/-- The `--quiet` branch of `listModels` from the CLI `list` command: IDs
shorter than 19 bytes are reported to stderr and skipped; the others
contribute `m.ID[7:19]` plus a newline. -/
def quietModelIDs : List StoredModel → GoStr
  | [] => []
  | m :: rest =>
    if m.id.length < 19 then quietModelIDs rest
    else ((m.id.drop 7).take 12 ++ '\n' :: []) ++ quietModelIDs rest

lemma beq_eq_false_of_length_ne {a b : GoStr} (h : a.length ≠ b.length) :
    (a == b) = false := by
  cases hab : a == b with
  | false => rfl
  | true => exact absurd (congrArg List.length (eq_of_beq hab)) h

lemma goTrimStart_sha256Colon {s : GoStr} (h : goStartsWith s sha256ColonStr = true) :
    goTrimStart s sha256ColonStr = s.drop 7 := by
  unfold goTrimStart
  rw [show goStartsWith s sha256ColonStr = sha256ColonStr.isPrefixOf s from rfl] at h
  unfold goStartsWith
  rw [if_pos h]
  rfl

/-- C9: `fullModelID` is total when every listed ID has at least 19 bytes;
a listed model with a shorter ID makes it panic (`m.ID[7:19]` out of
range), while the list path (`quietModelIDs`) guards the same case and
skips the model. -/
theorem fullModelID_panics_on_short_id :
    (∀ (models : List StoredModel) (id : GoStr),
      (∀ m ∈ models, 19 ≤ m.id.length) →
      ∃ res, fullModelID models id = .ok res) ∧
    fullModelID [⟨"sha256:abc".toList, []⟩] "abc".toList = .panic ∧
    quietModelIDs [⟨"sha256:abc".toList, []⟩] = [] := by
  refine ⟨?_, by decide, by decide⟩
  intro models id hlen
  induction models with
  | nil => exact ⟨none, rfl⟩
  | cons m rest ih =>
    have hm := hlen m (List.mem_cons_self m rest)
    have hnp : ¬ m.id.length < 19 := by omega
    obtain ⟨res, hres⟩ := ih (fun m' hm' => hlen m' (List.mem_cons_of_mem m hm'))
    unfold fullModelID
    rw [if_neg hnp]
    by_cases h1 : ((m.id.drop 7).take 12 == id || goTrimStart m.id sha256ColonStr == id
        || m.id == id) = true
    · rw [if_pos h1]
      exact ⟨some m.id, rfl⟩
    · rw [if_neg h1]
      by_cases h2 : m.tags.any (fun t => t == id) = true
      · rw [if_pos h2]
        exact ⟨some m.id, rfl⟩
      · rw [if_neg h2]
        by_cases h3 : m.tags.any (fun t => NormalizeModelName t ==
            NormalizeModelName id) = true
        · rw [if_pos h3]
          exact ⟨some m.id, rfl⟩
        · rw [if_neg h3]
          exact ⟨res, hres⟩

/-- C9 witness: totality applied at a store whose only ID is long enough. -/
theorem c9_witness :
    ∃ res, fullModelID
      [⟨("sha256:0123456789abcdef0123456789abcdef").toList, []⟩]
      "zzz".toList = .ok res := by
  exact fullModelID_panics_on_short_id.1
    [⟨("sha256:0123456789abcdef0123456789abcdef").toList, []⟩]
    "zzz".toList (by decide)

/-- The partial-name projector used by the tag fallback (and resolver tier
6): strip everything from the last `':'`, then keep what follows the last
`'/'` (from `handleTagModel`'s loop). -/
def tagNamePart (tag : GoStr) : GoStr :=
  let tagWithoutVersion :=
    match cutLast ':' tag with
    | some (pre, _) => pre
    | none => tag
  match cutLast '/' tagWithoutVersion with
  | some (_, post) => post
  | none => tagWithoutVersion

/-- Modelled from the spec: the tiered resolution of a reference against
the local index performed inside `distribution.Client` (its `Tag`/
`GetModel` resolution code is not under `src/`). Spec tiers, stopping at
the first hit, first model in insertion order: (1) exact canonical
reference, (2) full model ID, (3) 12-character ID prefix, (4) ID hex
without the `sha256:` prefix, (5) digest suffix `@<digest>`, (6)
partial-name match on tags. -/
def resolveLocalRef (models : List StoredModel) (ref : GoStr) : Option StoredModel :=
  match models.find? (fun m => m.tags.contains ref) with
  | some m => some m
  | none =>
  match models.find? (fun m => m.id == ref) with
  | some m => some m
  | none =>
  match models.find? (fun m => (goTrimStart m.id sha256ColonStr).take 12 == ref) with
  | some m => some m
  | none =>
  match models.find? (fun m => goTrimStart m.id sha256ColonStr == ref) with
  | some m => some m
  | none =>
  match (match cutLast '@' ref with
        | some (_, digest) => models.find? (fun m => m.id == digest)
        | none => none) with
  | some m => some m
  | none =>
  models.find? (fun m => m.tags.any (fun t => tagNamePart t == ref))

/-- The by-ID scan of `handleTagModel`'s fallback: the first model whose
full ID equals the input or has the input as a prefix AND that has at
least one tag contributes its first tag. -/
def findByIDWithTags : List StoredModel → GoStr → Option GoStr
  | [], _ => none
  | mm :: rest, model =>
    if (mm.id == model || goStartsWith mm.id model) = true then
      match mm.tags with
      | t :: _ => some t
      | [] => findByIDWithTags rest model
    else findByIDWithTags rest model

/-- The partial-name scan of `handleTagModel`'s fallback: the first tag
(in model order) whose name part matches the input. -/
def findByPartialNameTag : List StoredModel → GoStr → Option GoStr
  | [], _ => none
  | mm :: rest, model =>
    match mm.tags.find? (fun t => tagNamePart t == model) with
    | some t => some t
    | none => findByPartialNameTag rest model

/-- `handleTagModel`'s source-model resolution (the `Tag` calls are the
spec-modelled `resolveLocalRef`): first `Tag(model, target)` as-is; on
not-found, the ID fallback (only for inputs with a `sha256:` prefix or of
length exactly 12), then the partial-name fallback, and a final
`Tag(foundModelRef, target)` on the recovered tag. `none` embeds the 404
response. -/
def handleTagModelResolve (models : List StoredModel) (model : GoStr) :
    Option StoredModel :=
  match resolveLocalRef models model with
  | some m => some m
  | none =>
    let byID :=
      if (goStartsWith model sha256ColonStr || model.length == 12) = true then
        findByIDWithTags models model
      else none
    let fnd :=
      match byID with
      | some t => some t
      | none => findByPartialNameTag models model
    match fnd with
    | none => none
    | some t => resolveLocalRef models t

lemma fullModelID_shortID {models : List StoredModel} {m : StoredModel} {input : GoStr}
    (H1 : ∀ m' ∈ models, goStartsWith m'.id sha256ColonStr = true ∧ m'.id.length = 71)
    (H2 : m ∈ models) (H3 : input = (m.id.drop 7).take 12)
    (H4 : ∀ m' ∈ models, ∀ t ∈ m'.tags,
      t ≠ input ∧ NormalizeModelName t ≠ NormalizeModelName input)
    (H5 : ∀ m' ∈ models, (m'.id.drop 7).take 12 = input → m'.id = m.id) :
    fullModelID models input = .ok (some m.id) := by
  have hin12 : input.length = 12 := by
    rw [H3, List.length_take, List.length_drop, (H1 m H2).2]
    decide
  have hpred_m : ((m.id.drop 7).take 12 == input) = true := by
    rw [H3]
    exact beq_self_eq_true _
  clear H3
  induction models with
  | nil => cases H2
  | cons mm rest ih =>
    have hmm := H1 mm (List.mem_cons_self mm rest)
    have h19 : ¬ mm.id.length < 19 := by omega
    unfold fullModelID
    rw [if_neg h19]
    by_cases hp : ((mm.id.drop 7).take 12 == input) = true
    · have hid : mm.id = m.id := H5 mm (List.mem_cons_self mm rest) (eq_of_beq hp)
      have hcond : ((mm.id.drop 7).take 12 == input
          || goTrimStart mm.id sha256ColonStr == input || mm.id == input) = true := by
        simp [hp]
      rw [if_pos hcond, hid]
    · have hbp : ((mm.id.drop 7).take 12 == input) = false := by
        cases hx : ((mm.id.drop 7).take 12 == input) with
        | false => rfl
        | true => exact absurd hx hp
      have hdrop : goTrimStart mm.id sha256ColonStr = mm.id.drop 7 :=
        goTrimStart_sha256Colon hmm.1
      have hb2 : (goTrimStart mm.id sha256ColonStr == input) = false := by
        rw [hdrop]
        refine beq_eq_false_of_length_ne ?_
        rw [List.length_drop, hmm.2, hin12]
        omega
      have hb3 : (mm.id == input) = false := by
        refine beq_eq_false_of_length_ne ?_
        rw [hmm.2, hin12]
        omega
      have hcond : ((mm.id.drop 7).take 12 == input
          || goTrimStart mm.id sha256ColonStr == input || mm.id == input) = false := by
        rw [hbp, hb2, hb3]
        rfl
      rw [if_neg (by simp [hcond])]
      have htags1 : (mm.tags.any fun t => t == input) = false := by
        rw [List.any_eq_false]
        intro t ht hbt
        exact (H4 mm (List.mem_cons_self mm rest) t ht).1 (eq_of_beq hbt)
      have htags2 : (mm.tags.any fun t =>
          NormalizeModelName t == NormalizeModelName input) = false := by
        rw [List.any_eq_false]
        intro t ht hbt
        exact (H4 mm (List.mem_cons_self mm rest) t ht).2 (eq_of_beq hbt)
      rw [if_neg (by simp [htags1]), if_neg (by simp [htags2])]
      have hmem : m ∈ rest := by
        rcases List.mem_cons.mp H2 with heq | hr
        · rw [heq] at hpred_m
          exact absurd hpred_m hp
        · exact hr
      exact ih (fun m' hm' => H1 m' (List.mem_cons_of_mem mm hm')) hmem
        (fun m' hm' => H4 m' (List.mem_cons_of_mem mm hm'))
        (fun m' hm' => H5 m' (List.mem_cons_of_mem mm hm'))

/-- A concrete well-formed model ID for the C4 witness. -/
def wModelID : GoStr :=
  sha256ColonStr ++ "0123456789abcdef0123456789abcdef0123456789abcdef0123456789abcdef".toList

/-- A concrete stored model tagged `ai/llama3:latest` for the C4 witness. -/
def wModel : StoredModel := ⟨wModelID, ["ai/llama3:latest".toList]⟩


/-- `maximumConcurrentModelPulls` from the models manager sources. -/
def maximumConcurrentModelPulls : Nat := 2

/-- Concurrency-relevant state of the manager's pull path: how many tokens
sit in the `pullTokens` channel buffer, and how many `PullModel` calls are
past token acquisition and before their deferred release. -/
structure PullState where
  tokens : Nat
  active : Nat
deriving DecidableEq

/-- `NewManager` populates `pullTokens` (a channel of capacity
`maximumConcurrentModelPulls`) with exactly that many tokens before
serving; no pull is in flight. -/
def initialPullState : PullState := ⟨maximumConcurrentModelPulls, 0⟩

/-- One concurrency step of `PullModel`: `acquire` is the
`<-m.pullTokens` arm of its opening select (possible only when the channel
is non-empty, and taken before any registry I/O); `cancelBeforeAcquire` is
the `ctx.Done` arm, which returns `context.Canceled` without a token;
`release` is the deferred `m.pullTokens <- struct{}{}` that runs on every
exit path of a pull that acquired — success, error, or cancellation. -/
inductive PullStep : PullState → PullState → Prop
  | acquire (t a : Nat) : PullStep ⟨t + 1, a⟩ ⟨t, a + 1⟩
  | cancelBeforeAcquire (s : PullState) : PullStep s s
  | release (t a : Nat) : PullStep ⟨t, a + 1⟩ ⟨t + 1, a⟩

/-- The states the manager's pull path can reach from initialization. -/
inductive PullReachable : PullState → Prop
  | init : PullReachable initialPullState
  | step {s s' : PullState} : PullReachable s → PullStep s s' → PullReachable s'

/-- C5: the token pool starts with exactly 2 permits, and at every
reachable state the tokens in the pool and the pulls holding one sum to 2,
so at most 2 pulls are simultaneously past the acquisition point. -/
theorem pull_concurrency_cap (s : PullState) (hs : PullReachable s) :
    initialPullState.tokens = 2 ∧
    s.active + s.tokens = maximumConcurrentModelPulls ∧ s.active ≤ 2 := by
  refine ⟨rfl, ?_⟩
  induction hs with
  | init => exact ⟨rfl, Nat.zero_le 2⟩
  | step hr hstep ih =>
    rcases hstep with ⟨t, a⟩ | ⟨s₀⟩ | ⟨t, a⟩
    · obtain ⟨hsum, _⟩ := ih
      unfold maximumConcurrentModelPulls at hsum ⊢
      simp only [] at hsum ⊢
      omega
    · exact ih
    · obtain ⟨hsum, _⟩ := ih
      unfold maximumConcurrentModelPulls at hsum ⊢
      simp only [] at hsum ⊢
      omega

/-- C5 witness: the invariant at the initial state. -/
theorem c5_witness :
    initialPullState.tokens = 2 ∧
    initialPullState.active + initialPullState.tokens = maximumConcurrentModelPulls ∧
    initialPullState.active ≤ 2 :=
  pull_concurrency_cap initialPullState PullReachable.init

/-- The decoded body of a POST /models/create request. -/
structure ModelCreateRequest where
  fromRef : GoStr
  ignoreRuntimeMemoryCheck : Bool

/-- Outcome of `memoryEstimator.HaveSufficientMemoryForModel`: either a
verdict `proceed`, or an error from the estimator call itself. -/
inductive EstimatorOutcome
  | ok (proceed : Bool)
  | err
deriving DecidableEq

/-- What `handleCreateModel` does after its gate logic. -/
inductive CreateModelAction
  | serviceUnavailable
  | badRequest
  | insufficientMemory
  | startPull (modelRef : GoStr)
deriving DecidableEq

/-- The HTTP status `handleCreateModel` writes before or instead of the
pull (`none` means control reaches `PullModel`). 507 is Go's
`http.StatusInsufficientStorage`. -/
def createActionStatus : CreateModelAction → Option Nat
  | .serviceUnavailable => some 503
  | .badRequest => some 400
  | .insufficientMemory => some 507
  | .startPull _ => none

/-- `handleCreateModel` from the models manager, up to the decision of
whether the pull starts: nil distribution client → 503; body decode
failure → 400; then, when the runtime memory check is enabled and not
ignored by the request, the estimator verdict gates the pull — estimator
errors force `proceed = true` ("prefer staying functional"), and
`proceed = false` answers 507 without pulling. The pull runs on the
normalized model name. -/
def handleCreateModel (distributionClientAvailable : Bool)
    (body : Option ModelCreateRequest) (runtimeMemoryCheckEnabled : Bool)
    (est : EstimatorOutcome) : CreateModelAction :=
  if distributionClientAvailable = false then .serviceUnavailable
  else
    match body with
    | none => .badRequest
    | some request =>
      let fromN := NormalizeModelName request.fromRef
      if runtimeMemoryCheckEnabled && !request.ignoreRuntimeMemoryCheck then
        let proceed :=
          match est with
          | .err => true
          | .ok p => p
        if proceed = false then .insufficientMemory
        else .startPull fromN
      else .startPull fromN

/-- C6: with the runtime memory check enabled and not ignored, a
`proceed = false` verdict answers HTTP 507 and never reaches `PullModel`,
while an estimator error lets the pull proceed as if the check passed. -/
theorem memory_gate_on_create (request : ModelCreateRequest)
    (hignore : request.ignoreRuntimeMemoryCheck = false) :
    (handleCreateModel true (some request) true (.ok false) = .insufficientMemory ∧
      createActionStatus (handleCreateModel true (some request) true (.ok false)) =
        some 507) ∧
    handleCreateModel true (some request) true .err =
      .startPull (NormalizeModelName request.fromRef) := by
  unfold handleCreateModel
  simp only [hignore]
  exact ⟨⟨rfl, rfl⟩, rfl⟩

/-- C6 witness: the gate applied to a concrete request body. -/
theorem c6_witness :
    (handleCreateModel true (some ⟨"gemma3".toList, false⟩) true (.ok false) =
        .insufficientMemory ∧
      createActionStatus (handleCreateModel true (some ⟨"gemma3".toList, false⟩)
        true (.ok false)) = some 507) ∧
    handleCreateModel true (some ⟨"gemma3".toList, false⟩) true .err =
      .startPull (NormalizeModelName "gemma3".toList) :=
  memory_gate_on_create ⟨"gemma3".toList, false⟩ rfl

/-- Per-character table of Go's `html.EscapeString`. -/
def htmlEscapeChar (c : Char) : GoStr :=
  if c = '&' then "&amp;".toList
  else if c = '\'' then "&#39;".toList
  else if c = '<' then "&lt;".toList
  else if c = '>' then "&gt;".toList
  else if c = '"' then "&#34;".toList
  else [c]

/-- Go's `html.EscapeString` over a whole string. -/
def htmlEscapeString (s : GoStr) : GoStr := s.flatMap htmlEscapeChar

/-- The streaming-response setup shared by `PullModel` and `PushModel`:
response headers plus the JSON flag negotiated from the `Accept` header. -/
structure ProgressStreamSetup where
  contentType : GoStr
  cacheControl : GoStr
  connection : GoStr
  transferEncoding : GoStr
  isJSON : Bool
deriving DecidableEq

/-- The header setup of `Manager.PullModel`. -/
def pullModelStreamSetup (acceptHeader : GoStr) : ProgressStreamSetup :=
  let isJSON := acceptHeader == "application/json".toList
  { contentType := if isJSON then "application/json".toList else "text/plain".toList
    cacheControl := "no-cache".toList
    connection := "keep-alive".toList
    transferEncoding := "chunked".toList
    isJSON := isJSON }

/-- The header setup of `Manager.PushModel` (the source duplicates the
negotiation code of `PullModel`). -/
def pushModelStreamSetup (acceptHeader : GoStr) : ProgressStreamSetup :=
  let isJSON := acceptHeader == "application/json".toList
  { contentType := if isJSON then "application/json".toList else "text/plain".toList
    cacheControl := "no-cache".toList
    connection := "keep-alive".toList
    transferEncoding := "chunked".toList
    isJSON := isJSON }

/-- What one successful `progressResponseWriter.Write` call emits. -/
structure ProgressWriteEffect where
  dataWritten : GoStr
  flushed : Bool
deriving DecidableEq

/-- `progressResponseWriter.Write`: raw bytes when negotiated JSON,
`html.EscapeString`d payload otherwise, then `Flush` whenever a flusher is
present — and `PullModel`/`PushModel` always install one (they fail with
"streaming not supported" before constructing the writer otherwise). -/
def progressResponseWrite (isJSON : Bool) (flusherPresent : Bool) (p : GoStr) :
    ProgressWriteEffect :=
  let data := if isJSON then p else htmlEscapeString p
  ⟨data, flusherPresent⟩

/-- C7: on both the pull and the push streams, Accept exactly
`application/json` yields Content-Type application/json and raw payload
bytes; any other Accept yields text/plain and HTML-escaped payloads; and
every write is followed by a flush. -/
theorem progress_content_negotiation (accept p : GoStr) :
    (accept = "application/json".toList →
      (pullModelStreamSetup accept).contentType = "application/json".toList ∧
      (pushModelStreamSetup accept).contentType = "application/json".toList ∧
      progressResponseWrite (pullModelStreamSetup accept).isJSON true p = ⟨p, true⟩ ∧
      progressResponseWrite (pushModelStreamSetup accept).isJSON true p = ⟨p, true⟩) ∧
    (accept ≠ "application/json".toList →
      (pullModelStreamSetup accept).contentType = "text/plain".toList ∧
      (pushModelStreamSetup accept).contentType = "text/plain".toList ∧
      progressResponseWrite (pullModelStreamSetup accept).isJSON true p =
        ⟨htmlEscapeString p, true⟩ ∧
      progressResponseWrite (pushModelStreamSetup accept).isJSON true p =
        ⟨htmlEscapeString p, true⟩) ∧
    (progressResponseWrite (pullModelStreamSetup accept).isJSON true p).flushed =
      true := by
  refine ⟨?_, ?_, rfl⟩
  · intro hj
    have hb : (accept == "application/json".toList) = true := by
      rw [hj]
      exact beq_self_eq_true _
    unfold pullModelStreamSetup pushModelStreamSetup progressResponseWrite
    simp only [hb, if_true]
    exact ⟨trivial, trivial, trivial, trivial⟩
  · intro hj
    have hb : (accept == "application/json".toList) = false := by
      cases hx : accept == "application/json".toList with
      | false => rfl
      | true => exact absurd (eq_of_beq hx) hj
    unfold pullModelStreamSetup pushModelStreamSetup progressResponseWrite
    simp only [hb, Bool.false_eq_true, if_false]
    exact ⟨trivial, trivial, trivial, trivial⟩

/-- C7 witness: the negotiation applied to a JSON and a non-JSON Accept
value on a concrete payload. -/
theorem c7_witness :
    (pullModelStreamSetup "application/json".toList).contentType =
      "application/json".toList ∧
    progressResponseWrite (pullModelStreamSetup "application/json".toList).isJSON
      true "<ok>".toList = ⟨"<ok>".toList, true⟩ ∧
    (pullModelStreamSetup "text/html".toList).contentType = "text/plain".toList ∧
    progressResponseWrite (pullModelStreamSetup "text/html".toList).isJSON
      true "<ok>".toList = ⟨htmlEscapeString "<ok>".toList, true⟩ := by
  have h1 := (progress_content_negotiation "application/json".toList
    "<ok>".toList).1 rfl
  have h2 := (progress_content_negotiation "text/html".toList "<ok>".toList).2.1
    (by decide)
  exact ⟨h1.1, h1.2.2.1, h2.1, h2.2.2.1⟩

/-- `handleModelAction`'s tag branch from the models manager: the source
model string extracted from the URL is normalized before `handleTagModel`
runs (`m.handleTagModel(w, r, NormalizeModelName(model))`), so the tag
resolution always sees the normalized form. -/
def handleModelActionTagResolve (models : List StoredModel) (model : GoStr) :
    Option StoredModel :=
  handleTagModelResolve models (NormalizeModelName model)

lemma cutLast_eq_none_of_not_mem {c : Char} {s : GoStr} (h : c ∉ s) :
    cutLast c s = none := by
  unfold cutLast
  rw [splitFirst_eq_none_of_not_mem (fun hm => h (List.mem_reverse.mp hm))]

lemma findByPartialNameTag_eq_none {models : List StoredModel} {ref : GoStr}
    (h : ∀ m' ∈ models, ∀ t ∈ m'.tags, tagNamePart t ≠ ref) :
    findByPartialNameTag models ref = none := by
  induction models with
  | nil => rfl
  | cons mm rest ih =>
    unfold findByPartialNameTag
    have hf : mm.tags.find? (fun t => tagNamePart t == ref) = none := by
      rw [List.find?_eq_none]
      intro t ht hbt
      exact h mm (List.mem_cons_self mm rest) t ht (eq_of_beq hbt)
    rw [hf]
    exact ih (fun m' hm' => h m' (List.mem_cons_of_mem mm hm'))

/-- C4 (amended): the exact first 12 hex characters of a stored model's ID
resolve to that model through the CLI client's `fullModelID` (truncation
length fixed at 12), but the tag operation normalizes its source string
first, so the same bare short ID reaches the tag resolution as
`ai/<id>:latest` and resolves to no model (HTTP 404): it matches no
resolution tier and fails both fallback guards (`sha256:` prefix,
length 12). -/
theorem shortID_resolution_amended (models : List StoredModel) (m : StoredModel)
    (input : GoStr)
    (H1 : ∀ m' ∈ models, goStartsWith m'.id sha256ColonStr = true ∧ m'.id.length = 71)
    (H2 : m ∈ models) (H3 : input = (m.id.drop 7).take 12)
    (H4 : ∀ m' ∈ models, ∀ t ∈ m'.tags,
      t ≠ input ∧ NormalizeModelName t ≠ NormalizeModelName input)
    (H5 : ∀ m' ∈ models, (m'.id.drop 7).take 12 = input → m'.id = m.id)
    (H6 : ∀ m' ∈ models, ∀ t ∈ m'.tags,
      t ≠ NormalizeModelName input ∧ tagNamePart t ≠ NormalizeModelName input)
    (H7 : '/' ∉ input) (H8 : ':' ∉ input) (H9 : '@' ∉ input) :
    fullModelID models input = .ok (some m.id) ∧
    handleModelActionTagResolve models input = none := by
  have hin12 : input.length = 12 := by
    rw [H3, List.length_take, List.length_drop, (H1 m H2).2]
    decide
  refine ⟨fullModelID_shortID H1 H2 H3 H4 H5, ?_⟩
  have hne : input ≠ [] := by
    intro h
    rw [h] at hin12
    cases hin12
  have hnrm : NormalizeModelName input = aiSlash ++ (input ++ ':' :: defaultTagStr) := by
    rw [(normalizeModelName_defaults input hne).1 (contains_eq_false_of_not_mem H7),
      contains_eq_false_of_not_mem H8]
    rfl
  have hlen_nrm : (NormalizeModelName input).length = 22 := by
    rw [hnrm, List.length_append, List.length_append, List.length_cons, hin12]
    decide
  have hamem : '@' ∉ NormalizeModelName input := by
    rw [hnrm]
    intro hm
    rcases List.mem_append.mp hm with h | h
    · revert h
      decide
    · rcases List.mem_append.mp h with h2 | h2
      · exact H9 h2
      · revert h2
        decide
  have ht1 : models.find?
      (fun m' => m'.tags.contains (NormalizeModelName input)) = none := by
    rw [List.find?_eq_none]
    intro m' hm' hc
    exact (H6 m' hm' (NormalizeModelName input) (List.elem_iff.mp hc)).1 rfl
  have ht2 : models.find? (fun m' => m'.id == NormalizeModelName input) = none := by
    rw [List.find?_eq_none]
    intro m' hm' hc
    have := congrArg List.length (eq_of_beq hc)
    rw [(H1 m' hm').2, hlen_nrm] at this
    cases this
  have ht3 : models.find? (fun m' =>
      (goTrimStart m'.id sha256ColonStr).take 12 == NormalizeModelName input) = none := by
    rw [List.find?_eq_none]
    intro m' hm' hc
    rw [goTrimStart_sha256Colon (H1 m' hm').1] at hc
    have := congrArg List.length (eq_of_beq hc)
    rw [List.length_take, List.length_drop, (H1 m' hm').2, hlen_nrm] at this
    cases this
  have ht4 : models.find? (fun m' =>
      goTrimStart m'.id sha256ColonStr == NormalizeModelName input) = none := by
    rw [List.find?_eq_none]
    intro m' hm' hc
    rw [goTrimStart_sha256Colon (H1 m' hm').1] at hc
    have := congrArg List.length (eq_of_beq hc)
    rw [List.length_drop, (H1 m' hm').2, hlen_nrm] at this
    cases this
  have ht5 : cutLast '@' (NormalizeModelName input) = none :=
    cutLast_eq_none_of_not_mem hamem
  have ht6 : models.find? (fun m' =>
      m'.tags.any fun t => tagNamePart t == NormalizeModelName input) = none := by
    rw [List.find?_eq_none]
    intro m' hm' hc
    obtain ⟨t, ht, hbt⟩ := List.any_eq_true.mp hc
    exact (H6 m' hm' t ht).2 (eq_of_beq hbt)
  have hres : resolveLocalRef models (NormalizeModelName input) = none := by
    unfold resolveLocalRef
    simp only [ht1, ht2, ht3, ht4, ht5, ht6]
  have hsw : goStartsWith (NormalizeModelName input) sha256ColonStr = false := by
    rw [hnrm]
    exact goStartsWith_cons_ne (by decide) _ _
  have hlen12 : ((NormalizeModelName input).length == 12) = false := by
    rw [hlen_nrm]
    rfl
  have hpn : findByPartialNameTag models (NormalizeModelName input) = none :=
    findByPartialNameTag_eq_none (fun m' hm' t ht => (H6 m' hm' t ht).2)
  unfold handleModelActionTagResolve handleTagModelResolve
  rw [hres]
  simp only [hsw, hlen12, Bool.or_self, Bool.false_eq_true, if_false, hpn]

set_option maxRecDepth 16384 in
/-- C4 counterexample: a store holds a model whose ID hex starts with
`0123456789ab`; the tag operation applied to exactly those 12 characters
normalizes them to `ai/0123456789ab:latest` and resolves no model — the
claimed short-ID resolution never happens on the tag path. -/
theorem c4_counterexample :
    (wModel.id.drop 7).take 12 = "0123456789ab".toList ∧
    NormalizeModelName "0123456789ab".toList = "ai/0123456789ab:latest".toList ∧
    handleModelActionTagResolve [wModel] "0123456789ab".toList = none := by
  decide

set_option maxRecDepth 16384 in
/-- C4 witness: the amended theorem applied to the concrete one-model
store. -/
theorem c4_witness :
    fullModelID [wModel] ((wModel.id.drop 7).take 12) = .ok (some wModel.id) ∧
    handleModelActionTagResolve [wModel] ((wModel.id.drop 7).take 12) = none := by
  exact shortID_resolution_amended [wModel] wModel ((wModel.id.drop 7).take 12)
    (by decide) (List.mem_singleton.mpr rfl) rfl (by decide) (by decide)
    (by decide) (by decide) (by decide) (by decide)
